import Mathlib

/-!
Shallow embedding of `src/zc/zk/testing.py`, the in-process ZooKeeper
emulator (classes `ZooKeeper` and `Node`, plus the module-level helper
`assert_`).  Python dicts become association lists, sets become duplicate-free
lists, watcher callbacks become opaque numeric identifiers, and every side
effect that the source performs through a callback or `print` is recorded in
an explicit list of `Action`s returned by each operation.
-/

namespace ZkTest

/-- The `zookeeper.CONNECTED_STATE` constant passed to watch callbacks. -/
def CONNECTED_STATE : Nat := 3

/-- The `zookeeper.EPHEMERAL` creation-flag bit. -/
def EPHEMERAL : Nat := 1

/-- ACL values are opaque to the emulator (stored, never inspected); we model
them as natural numbers, with `zc.zk.OPEN_ACL_UNSAFE` — the class-level
default of `Node.acl` — modelled as `0`. -/
def OPEN_ACL : Nat := 0

/-- Exceptions raised by the emulator.  `invalidHandle` is the
`zookeeper.ZooKeeperException('handle out of range')` of `_check_handle`;
`keyError` / `valueError` are the Python `KeyError` (from `del`) and
`ValueError` (from unpacking `rsplit`). -/
inductive ZKErr where
  | noNode
  | nodeExists
  | badVersion
  | invalidHandle
  | keyError
  | valueError
  deriving DecidableEq, Repr

instance {ε α : Type} [DecidableEq ε] [DecidableEq α] :
    DecidableEq (Except ε α) := fun x y =>
  match x, y with
  | .ok a, .ok b =>
    if h : a = b then .isTrue (by rw [h]) else .isFalse (by simp [h])
  | .ok _, .error _ => .isFalse (by simp)
  | .error _, .ok _ => .isFalse (by simp)
  | .error a, .error b =>
    if h : a = b then .isTrue (by rw [h]) else .isFalse (by simp [h])

/-- The four event kinds delivered to watch callbacks: `SESSION_EVENT`,
`CHANGED_EVENT`, `DELETED_EVENT` and `CHILD_EVENT`. -/
inductive EventKind where
  | session
  | changed
  | deleted
  | child
  deriving DecidableEq, Repr

/-- Observable side effects of an operation, in execution order:
`assertionFailed m` is the `print` performed by `assert_` on a false
condition; `unlink base name` is `del bnode.children[name]` in `delete`;
`invoke cb h kind st path` is the call `w(h, kind, st, path)` of the watch
callback with identifier `cb`. -/
inductive Action where
  | assertionFailed (mess : String)
  | unlink (base : String) (name : String)
  | invoke (cb : Nat) (h : Nat) (kind : EventKind) (st : Nat) (path : String)
  deriving DecidableEq, Repr

/-- A tree node (class `Node`).  `children` is the dict mapping child names to
nodes; `watchers` and `child_watchers` are the tuples of
`(session handle, callback)` pairs; `acls` is the (otherwise unused) attribute
assigned by `ZooKeeper.create`, kept separate from the `acl` attribute read by
`get_acl`/`set_acl`. -/
inductive Node where
  | mk (data : String) (children : List (String × Node)) (acl : Nat)
       (acls : Option Nat) (aversion : Nat) (flags : Nat)
       (watchers : List (Nat × Nat)) (child_watchers : List (Nat × Nat))

def Node.data : Node → String
  | .mk d _ _ _ _ _ _ _ => d

def Node.children : Node → List (String × Node)
  | .mk _ ch _ _ _ _ _ _ => ch

def Node.acl : Node → Nat
  | .mk _ _ a _ _ _ _ _ => a

def Node.acls : Node → Option Nat
  | .mk _ _ _ as _ _ _ _ => as

def Node.aversion : Node → Nat
  | .mk _ _ _ _ av _ _ _ => av

def Node.flags : Node → Nat
  | .mk _ _ _ _ _ fl _ _ => fl

def Node.watchers : Node → List (Nat × Nat)
  | .mk _ _ _ _ _ _ ws _ => ws

def Node.child_watchers : Node → List (Nat × Nat)
  | .mk _ _ _ _ _ _ _ cws => cws

def Node.setData : Node → String → Node
  | .mk _ ch a as av fl ws cws, d => .mk d ch a as av fl ws cws

def Node.setChildren : Node → List (String × Node) → Node
  | .mk d _ a as av fl ws cws, ch => .mk d ch a as av fl ws cws

def Node.setAcl : Node → Nat → Node
  | .mk d ch _ as av fl ws cws, a => .mk d ch a as av fl ws cws

def Node.setAcls : Node → Option Nat → Node
  | .mk d ch a _ av fl ws cws, as => .mk d ch a as av fl ws cws

def Node.setAversion : Node → Nat → Node
  | .mk d ch a as _ fl ws cws, av => .mk d ch a as av fl ws cws

def Node.setFlags : Node → Nat → Node
  | .mk d ch a as av _ ws cws, fl => .mk d ch a as av fl ws cws

def Node.setWatchers : Node → List (Nat × Nat) → Node
  | .mk d ch a as av fl _ cws, ws => .mk d ch a as av fl ws cws

def Node.setChildWatchers : Node → List (Nat × Nat) → Node
  | .mk d ch a as av fl ws _, cws => .mk d ch a as av fl ws cws

/-- `Node(data)`: a fresh node with the class-level defaults
(`watchers = child_watchers = ()`, `flags = 0`, `aversion = 0`,
`acl = OPEN_ACL_UNSAFE`) and no children. -/
def Node.fresh (data : String) : Node :=
  .mk data [] OPEN_ACL none 0 0 [] []

/-- `w(h, kind, st, path)` for a watcher pair `p = (handle, callback)`. -/
def mkInvoke (kind : EventKind) (st : Nat) (path : String) (p : Nat × Nat) :
    Action :=
  .invoke p.2 p.1 kind st path

/-- `Node.children_changed`: swap `child_watchers` to `()` and invoke every
captured callback with `CHILD_EVENT`.  The `handle` argument of the source
method is unused by its body. -/
def Node.children_changed (n : Node) (_handle : Nat) (st : Nat)
    (path : String) : Node × List Action :=
  (n.setChildWatchers [], n.child_watchers.map (mkInvoke .child st path))

/-- `Node.changed`: swap `watchers` to `()` and invoke every captured callback
with `CHANGED_EVENT`. -/
def Node.changed (n : Node) (_handle : Nat) (st : Nat) (path : String) :
    Node × List Action :=
  (n.setWatchers [], n.watchers.map (mkInvoke .changed st path))

/-- `Node.deleted`: exactly as in the source, which assigns
`self.watchers = ()` in BOTH loops — `watchers` is drained and its callbacks
invoked with `DELETED_EVENT`, then `child_watchers` is read and invoked with
`DELETED_EVENT` but never cleared (the second assignment re-clears
`watchers`). -/
def Node.deleted (n : Node) (_handle : Nat) (st : Nat) (path : String) :
    Node × List Action :=
  (n.setWatchers [],
   n.watchers.map (mkInvoke .deleted st path)
     ++ n.child_watchers.map (mkInvoke .deleted st path))

/-- Children-dict lookup (`node.children[name]`). -/
def lookupChild : List (String × Node) → String → Option Node
  | [], _ => none
  | (s, c) :: rest, name => if s = name then some c else lookupChild rest name

/-- Children-dict removal (`del node.children[name]`). -/
def eraseChild (name : String) : List (String × Node) → List (String × Node)
  | [] => []
  | (s, c) :: rest =>
    if s = name then eraseChild name rest else (s, c) :: eraseChild name rest

/-- Children-dict value replacement at a key (functional stand-in for the
in-place mutation of a child node reached through the dict). -/
def replaceChild (name : String) (c' : Node) :
    List (String × Node) → List (String × Node)
  | [] => []
  | (s, c) :: rest =>
    if s = name then (s, c') :: replaceChild name c' rest
    else (s, c) :: replaceChild name c' rest

/-- `path.split('/')` on the character list: Python semantics
(`''` splits to `['']`, `'/'` to `['', '']`). -/
def splitChars : List Char → List (List Char)
  | [] => [[]]
  | c :: rest =>
    match splitChars rest with
    | [] => [[c]]
    | s :: ss => if c = '/' then [] :: s :: ss else (c :: s) :: ss

/-- `path.split('/')` as a list of strings. -/
def splitPath (p : String) : List String :=
  (splitChars p.data).map (fun cs => { data := cs })

/-- `path.split('/')[1:]`, the segment list `_traverse` iterates over. -/
def pathSegs (p : String) : List String :=
  (splitPath p).tail

/-- The scan predicate of `rsplit1`: true for characters other than `'/'`. -/
def notSlash (c : Char) : Bool := c ≠ '/'

/-- `base, name = path.rsplit('/', 1)`: split at the last `'/'`; `none` models
the `ValueError` raised when the path contains no slash. -/
def rsplit1 (p : String) : Option (String × String) :=
  let r := p.data.reverse
  let nm := r.takeWhile notSlash
  match r.dropWhile notSlash with
  | [] => none
  | _ :: base => some ({ data := base.reverse }, { data := nm.reverse })

/-- The traversal loop of `_traverse`, starting from a given node:
`for name in segs: if not name: continue; node = node.children[name]`,
raising `NoNodeException` on a missing child. -/
def traverseFrom : Node → List String → Except ZKErr Node
  | n, [] => .ok n
  | n, s :: rest =>
    if s = "" then traverseFrom n rest
    else
      match lookupChild n.children s with
      | none => .error .noNode
      | some c => traverseFrom c rest

/-- Functional update of the node reached by the traversal loop: rebuilds the
tree along `segs` (skipping empty segments exactly as `traverseFrom` does) and
applies `f` at the target, collecting the actions `f` produces.  If a segment
is missing the tree is returned unchanged (callers only use this on paths that
`traverseFrom` resolves). -/
def updateSegs (f : Node → Node × List Action) :
    Node → List String → Node × List Action
  | n, [] => f n
  | n, s :: rest =>
    if s = "" then updateSegs f n rest
    else
      match lookupChild n.children s with
      | none => (n, [])
      | some c =>
        let r := updateSegs f c rest
        (n.setChildren (replaceChild s r.1 n.children), r.2)

/-- The mutable state of a `ZooKeeper` instance: the configured connection
string, the tree root, and the session dict mapping handles to their sets of
ephemeral paths. -/
structure ZooKeeper where
  connection_string : String
  root : Node
  sessions : List (Nat × List String)

/-- The outcome of one façade operation: the returned value or raised
exception, the state after the call, and the observable actions performed. -/
structure Out (α : Type) where
  val : Except ZKErr α
  st : ZooKeeper
  acts : List Action

def ZooKeeper.sessionKeys (zk : ZooKeeper) : List Nat :=
  zk.sessions.map (fun e => e.1)

/-- `handle in self.sessions` / `_check_handle` test. -/
def ZooKeeper.check_handle (zk : ZooKeeper) (h : Nat) : Bool :=
  zk.sessionKeys.contains h

/-- The `while handle in self.sessions: handle += 1` loop of `init`, with
enough fuel to reach the first unused handle. -/
def lowestUnusedFrom (keys : List Nat) : Nat → Nat → Nat
  | 0, h => h
  | fuel + 1, h => if h ∈ keys then lowestUnusedFrom keys fuel (h + 1) else h

/-- The handle allocated by `init`: the least natural number not among the
live session handles. -/
def lowestUnused (keys : List Nat) : Nat :=
  lowestUnusedFrom keys (keys.length + 1) 0

/-- `self.sessions[handle]` (empty if the handle is absent; callers check). -/
def sessLookup : List (Nat × List String) → Nat → List String
  | [], _ => []
  | e :: rest, h => if e.1 = h then e.2 else sessLookup rest h

/-- `self.sessions[handle].add(path)` (sets hold no duplicates). -/
def sessAdd (ss : List (Nat × List String)) (h : Nat) (p : String) :
    List (Nat × List String) :=
  ss.map (fun e =>
    if e.1 = h then (e.1, if p ∈ e.2 then e.2 else e.2 ++ [p]) else e)

/-- `self.sessions[handle].remove(path)` guarded by the membership test. -/
def removePath (p : String) : List String → List String
  | [] => []
  | q :: rest => if q = p then removePath p rest else q :: removePath p rest

def sessRemove (ss : List (Nat × List String)) (h : Nat) (p : String) :
    List (Nat × List String) :=
  ss.map (fun e => if e.1 = h then (e.1, removePath p e.2) else e)

/-- `del self.sessions[handle]`. -/
def sessErase (h : Nat) : List (Nat × List String) → List (Nat × List String)
  | [] => []
  | e :: rest => if e.1 = h then sessErase h rest else e :: sessErase h rest

/-- `ZooKeeper.init`: `assert_` merely prints on an address mismatch (recorded
as an `assertionFailed` action) and execution continues; the lowest unused
handle is registered with an empty ephemeral set, and the optional watch
callback is invoked with `(handle, SESSION_EVENT, CONNECTED_STATE, '')`.  The
method returns `None`. -/
def ZooKeeper.init (zk : ZooKeeper) (addr : String) (watch : Option Nat) :
    Out Unit :=
  let pre : List Action :=
    if addr = zk.connection_string then [] else [.assertionFailed addr]
  let h := lowestUnused zk.sessionKeys
  let evs : List Action :=
    match watch with
    | some cb => [.invoke cb h .session CONNECTED_STATE ""]
    | none => []
  ⟨.ok (), { zk with sessions := zk.sessions ++ [(h, [])] }, pre ++ evs⟩

/-- `ZooKeeper._traverse`. -/
def ZooKeeper._traverse (zk : ZooKeeper) (path : String) : Except ZKErr Node :=
  traverseFrom zk.root (pathSegs path)

/-- `ZooKeeper.state`. -/
def ZooKeeper.state (zk : ZooKeeper) (h : Nat) : Out Nat :=
  if zk.check_handle h then ⟨.ok CONNECTED_STATE, zk, []⟩
  else ⟨.error .invalidHandle, zk, []⟩

/-- `ZooKeeper.exists` (named `exists_` here; `exists` clashes with Lean
syntax).  Catches only `NoNodeException`, turning it into `False`. -/
def ZooKeeper.exists_ (zk : ZooKeeper) (h : Nat) (path : String) : Out Bool :=
  if zk.check_handle h then
    match zk._traverse path with
    | .ok _ => ⟨.ok true, zk, []⟩
    | .error .noNode => ⟨.ok false, zk, []⟩
    | .error e => ⟨.error e, zk, []⟩
  else ⟨.error .invalidHandle, zk, []⟩

/-- `ZooKeeper.get`: returns `(node.data, ephemeralOwner)` where
`ephemeralOwner` is `1` iff the node's flags contain the `EPHEMERAL` bit, and
appends `(handle, watch)` to the node's `watchers` when a watch is given. -/
def ZooKeeper.get (zk : ZooKeeper) (h : Nat) (path : String)
    (watch : Option Nat) : Out (String × Nat) :=
  if zk.check_handle h then
    match zk._traverse path with
    | .error e => ⟨.error e, zk, []⟩
    | .ok node =>
      let zk' :=
        match watch with
        | some cb =>
          { zk with
            root := (updateSegs
              (fun n => (n.setWatchers (n.watchers ++ [(h, cb)]), []))
              zk.root (pathSegs path)).1 }
        | none => zk
      ⟨.ok (node.data, if node.flags.land EPHEMERAL ≠ 0 then 1 else 0),
       zk', []⟩
  else ⟨.error .invalidHandle, zk, []⟩

/-- Insertion sort on strings, modelling Python's `sorted`. -/
def insertSorted (s : String) : List String → List String
  | [] => [s]
  | t :: rest => if s ≤ t then s :: t :: rest else t :: insertSorted s rest

def sortStrings : List String → List String
  | [] => []
  | s :: rest => insertSorted s (sortStrings rest)

/-- `ZooKeeper.get_children`: returns `sorted(node.children)` and appends
`(handle, watch)` to the node's `child_watchers` when a watch is given. -/
def ZooKeeper.get_children (zk : ZooKeeper) (h : Nat) (path : String)
    (watch : Option Nat) : Out (List String) :=
  if zk.check_handle h then
    match zk._traverse path with
    | .error e => ⟨.error e, zk, []⟩
    | .ok node =>
      let zk' :=
        match watch with
        | some cb =>
          { zk with
            root := (updateSegs
              (fun n =>
                (n.setChildWatchers (n.child_watchers ++ [(h, cb)]), []))
              zk.root (pathSegs path)).1 }
        | none => zk
      ⟨.ok (sortStrings (node.children.map (fun e => e.1))), zk', []⟩
  else ⟨.error .invalidHandle, zk, []⟩

/-- `ZooKeeper.create`: after the handle check, `rsplit` the path (a path
without `'/'` raises `ValueError`), traverse to the parent, fail with
`NodeExistsException` on a taken name, otherwise insert
`Node(data)` with `acls = acl` (note: the attribute read by `get_acl` is
`acl`, which keeps its class default) and `flags = flags`, fire the parent's
`children_changed`, and record the path in the session's ephemeral set when
the `EPHEMERAL` bit is set.  Returns the path. -/
def ZooKeeper.create (zk : ZooKeeper) (h : Nat) (path : String) (data : String)
    (acl : Nat) (flags : Nat) : Out String :=
  if zk.check_handle h then
    match rsplit1 path with
    | none => ⟨.error .valueError, zk, []⟩
    | some (base, name) =>
      match zk._traverse base with
      | .error e => ⟨.error e, zk, []⟩
      | .ok node =>
        if (lookupChild node.children name).isSome then
          ⟨.error .nodeExists, zk, []⟩
        else
          let newnode := ((Node.fresh data).setAcls (some acl)).setFlags flags
          let r := updateSegs
            (fun n =>
              (n.setChildren (n.children ++ [(name, newnode)])).children_changed
                h CONNECTED_STATE base)
            zk.root (pathSegs base)
          let zk1 : ZooKeeper := { zk with root := r.1 }
          let zk2 :=
            if flags.land EPHEMERAL ≠ 0 then
              { zk1 with sessions := sessAdd zk1.sessions h path }
            else zk1
          ⟨.ok path, zk2, r.2⟩
  else ⟨.error .invalidHandle, zk, []⟩

/-- `ZooKeeper.delete`: traverse to the node, `rsplit` the path, traverse to
the parent, `del bnode.children[name]` (a missing key raises `KeyError`),
then fire the unlinked node's `deleted` event, then the parent's
`children_changed`, and finally discard the path from the session's ephemeral
set.  The unlink strictly precedes every watcher invocation. -/
def ZooKeeper.delete (zk : ZooKeeper) (h : Nat) (path : String) : Out Unit :=
  if zk.check_handle h then
    match zk._traverse path with
    | .error e => ⟨.error e, zk, []⟩
    | .ok node =>
      match rsplit1 path with
      | none => ⟨.error .valueError, zk, []⟩
      | some (base, name) =>
        match zk._traverse base with
        | .error e => ⟨.error e, zk, []⟩
        | .ok bnode =>
          if (lookupChild bnode.children name).isSome then
            let r1 := updateSegs
              (fun n => (n.setChildren (eraseChild name n.children), []))
              zk.root (pathSegs base)
            let dEvents := (node.deleted h CONNECTED_STATE path).2
            let r2 := updateSegs
              (fun n => n.children_changed h CONNECTED_STATE base)
              r1.1 (pathSegs base)
            ⟨.ok (), ⟨zk.connection_string, r2.1, sessRemove zk.sessions h path⟩,
             .unlink base name :: dEvents ++ r2.2⟩
          else ⟨.error .keyError, zk, []⟩
  else ⟨.error .invalidHandle, zk, []⟩

/-- `ZooKeeper.set`: replace the node's data, then fire its `changed`
event. -/
def ZooKeeper.set (zk : ZooKeeper) (h : Nat) (path : String) (data : String) :
    Out Unit :=
  if zk.check_handle h then
    match zk._traverse path with
    | .error e => ⟨.error e, zk, []⟩
    | .ok _ =>
      let r := updateSegs
        (fun n => (n.setData data).changed h CONNECTED_STATE path)
        zk.root (pathSegs path)
      ⟨.ok (), { zk with root := r.1 }, r.2⟩
  else ⟨.error .invalidHandle, zk, []⟩

/-- `ZooKeeper.get_acl`: returns `(dict(aversion=...), node.acl)`, modelled as
the pair `(aversion, acl)`. -/
def ZooKeeper.get_acl (zk : ZooKeeper) (h : Nat) (path : String) :
    Out (Nat × Nat) :=
  if zk.check_handle h then
    match zk._traverse path with
    | .error e => ⟨.error e, zk, []⟩
    | .ok node => ⟨.ok (node.aversion, node.acl), zk, []⟩
  else ⟨.error .invalidHandle, zk, []⟩

/-- `ZooKeeper.set_acl`: `BadVersionException` on an `aversion` mismatch,
otherwise increment `aversion` and replace `acl`. -/
def ZooKeeper.set_acl (zk : ZooKeeper) (h : Nat) (path : String)
    (aversion : Nat) (acl : Nat) : Out Unit :=
  if zk.check_handle h then
    match zk._traverse path with
    | .error e => ⟨.error e, zk, []⟩
    | .ok node =>
      if aversion ≠ node.aversion then ⟨.error .badVersion, zk, []⟩
      else
        let r := updateSegs
          (fun n => ((n.setAversion (n.aversion + 1)).setAcl acl, []))
          zk.root (pathSegs path)
        ⟨.ok (), { zk with root := r.1 }, []⟩
  else ⟨.error .invalidHandle, zk, []⟩

/-- The tuple comprehension `((h, w) for (h, w) in ... if h != handle)`. -/
def dropHandle (h : Nat) : List (Nat × Nat) → List (Nat × Nat)
  | [] => []
  | p :: rest => if p.1 = h then dropHandle h rest else p :: dropHandle h rest

mutual

/-- `Node.clear_watchers`: strip every watcher pair bearing the handle from
this node's `watchers` and `child_watchers` and recurse into every child. -/
def Node.clear_watchers (h : Nat) : Node → Node
  | .mk d ch a as av fl ws cws =>
    .mk d (clearList h ch) a as av fl (dropHandle h ws) (dropHandle h cws)

/-- `clear_watchers` mapped over the children dict. -/
def clearList (h : Nat) : List (String × Node) → List (String × Node)
  | [] => []
  | (s, c) :: rest => (s, Node.clear_watchers h c) :: clearList h rest

end

mutual

/-- Whether any node of the tree still carries a watcher or child-watcher
registration with the given handle (used to state what a session close must
remove). -/
def Node.hasW (h : Nat) : Node → Bool
  | .mk _ ch _ _ _ _ ws cws =>
    ws.any (fun p => p.1 == h) || cws.any (fun p => p.1 == h) || hasWList h ch

def hasWList (h : Nat) : List (String × Node) → Bool
  | [] => false
  | (_, c) :: rest => Node.hasW h c || hasWList h rest

end

/-- The `for path in list(self.sessions[handle]): self.delete(handle, path)`
loop of `close`: on the first failing delete the exception propagates, keeping
the state and actions accumulated so far. -/
def closeLoop (zk : ZooKeeper) (h : Nat) : List String → Out Unit
  | [] => ⟨.ok (), zk, []⟩
  | p :: rest =>
    let r := zk.delete h p
    match r.val with
    | .error e => ⟨.error e, r.st, r.acts⟩
    | .ok _ =>
      let r2 := closeLoop r.st h rest
      ⟨r2.val, r2.st, r.acts ++ r2.acts⟩

/-- `ZooKeeper.close`: delete every path in the session's ephemeral set (a
snapshot taken before the loop), then remove the session and strip the
handle's watcher registrations from the whole tree. -/
def ZooKeeper.close (zk : ZooKeeper) (h : Nat) : Out Unit :=
  if zk.check_handle h then
    let r := closeLoop zk h (sessLookup zk.sessions h)
    match r.val with
    | .error e => ⟨.error e, r.st, r.acts⟩
    | .ok _ =>
      ⟨.ok (),
       ⟨r.st.connection_string, Node.clear_watchers h r.st.root,
        sessErase h r.st.sessions⟩,
       r.acts⟩
  else ⟨.error .invalidHandle, zk, []⟩

/-! ### Spec-side and auxiliary definitions used by the theorems -/

/-- The non-empty segments of a segment list (what remains after the
"empty segments are skipped" rule of the spec). -/
def nonEmptySegs : List String → List String
  | [] => []
  | s :: rest => if s = "" then nonEmptySegs rest else s :: nonEmptySegs rest

/-- Modelled from the spec: plain descent of the `children` mapping along a
list of (non-empty) segments, failing with a "no node" error on an absent
segment.  `_traverse` is compared against this in the traversal claim. -/
def specResolve : Node → List String → Except ZKErr Node
  | n, [] => .ok n
  | n, s :: rest =>
    match lookupChild n.children s with
    | none => .error .noNode
    | some c => specResolve c rest

/-- `updateSegs` without the empty-segment skipping (used to reason about
tree updates over normalised segment lists). -/
def updateN (f : Node → Node × List Action) :
    Node → List String → Node × List Action
  | n, [] => f n
  | n, s :: rest =>
    match lookupChild n.children s with
    | none => (n, [])
    | some c =>
      let r := updateN f c rest
      (n.setChildren (replaceChild s r.1 n.children), r.2)

/-- Whether plain descent along a (normalised) segment list succeeds. -/
def existsN (n : Node) (t : List String) : Bool :=
  match specResolve n t with
  | .ok _ => true
  | .error _ => false

/-- Whether a path is present in a tree, by the emulator's own traversal. -/
def resolvesB (n : Node) (p : String) : Bool :=
  match traverseFrom n (pathSegs p) with
  | .ok _ => true
  | .error _ => false

def isErr {α : Type} : Except ZKErr α → Bool
  | .error _ => true
  | .ok _ => false

/-! ### Concrete states used by counterexamples and witnesses

`zk0` mirrors `ZooKeeper(connection_string, Node())`, the instance `setUp`
builds when an import tree is supplied; every other state below is reached
from it purely through façade operations. -/

/-- The default connection string of `setUp`. -/
def cs : String := "zookeeper.example.com:2181"

def zk0 : ZooKeeper := ⟨cs, Node.fresh "", []⟩

/-- `zk0` after `init(cs)`: one session with handle `0`. -/
def zkA : ZooKeeper := (zk0.init cs none).st

/-- `zkA` after a second `init(cs)`: sessions `0` and `1`. -/
def zkB : ZooKeeper := (zkA.init cs none).st

/-- `zkB` after session `0` created ephemeral `/a` and `/z` and session `1`
deleted `/z`: session `0`'s ephemeral set still lists `/z`, which is gone from
the tree. -/
def zkStale : ZooKeeper :=
  ((((zkB.create 0 "/a" "" 0 1).st.create 0 "/z" "" 0 1).st).delete 1 "/z").st

/-- `zkB` after session `0` created ephemeral `/a` and then the plain
(non-ephemeral) child `/a/b`. -/
def zkNested : ZooKeeper :=
  ((zkB.create 0 "/a" "" 0 1).st.create 0 "/a/b" "y" 0 0).st

/-- `zkA` after `create(0, "/a", "x")` and `get(0, "/a", watch=5)`: node `/a`
carries the data-watcher `(0, 5)`. -/
def zkWatched : ZooKeeper :=
  ((zkA.create 0 "/a" "x" 0 0).st.get 0 "/a" (some 5)).st

/-! ### Projection and setter computation lemmas -/

@[simp] theorem Node.data_mk :
    (Node.mk d ch a as av fl ws cws).data = d := rfl

@[simp] theorem Node.children_mk :
    (Node.mk d ch a as av fl ws cws).children = ch := rfl

@[simp] theorem Node.acl_mk :
    (Node.mk d ch a as av fl ws cws).acl = a := rfl

@[simp] theorem Node.acls_mk :
    (Node.mk d ch a as av fl ws cws).acls = as := rfl

@[simp] theorem Node.aversion_mk :
    (Node.mk d ch a as av fl ws cws).aversion = av := rfl

@[simp] theorem Node.flags_mk :
    (Node.mk d ch a as av fl ws cws).flags = fl := rfl

@[simp] theorem Node.watchers_mk :
    (Node.mk d ch a as av fl ws cws).watchers = ws := rfl

@[simp] theorem Node.child_watchers_mk :
    (Node.mk d ch a as av fl ws cws).child_watchers = cws := rfl

@[simp] theorem Node.setData_mk :
    (Node.mk d ch a as av fl ws cws).setData d' = .mk d' ch a as av fl ws cws :=
  rfl

@[simp] theorem Node.setChildren_mk :
    (Node.mk d ch a as av fl ws cws).setChildren ch'
      = .mk d ch' a as av fl ws cws := rfl

@[simp] theorem Node.setAcl_mk :
    (Node.mk d ch a as av fl ws cws).setAcl a' = .mk d ch a' as av fl ws cws :=
  rfl

@[simp] theorem Node.setAcls_mk :
    (Node.mk d ch a as av fl ws cws).setAcls as'
      = .mk d ch a as' av fl ws cws := rfl

@[simp] theorem Node.setAversion_mk :
    (Node.mk d ch a as av fl ws cws).setAversion av'
      = .mk d ch a as av' fl ws cws := rfl

@[simp] theorem Node.setFlags_mk :
    (Node.mk d ch a as av fl ws cws).setFlags fl'
      = .mk d ch a as av fl' ws cws := rfl

@[simp] theorem Node.setWatchers_mk :
    (Node.mk d ch a as av fl ws cws).setWatchers ws'
      = .mk d ch a as av fl ws' cws := rfl

@[simp] theorem Node.setChildWatchers_mk :
    (Node.mk d ch a as av fl ws cws).setChildWatchers cws'
      = .mk d ch a as av fl ws cws' := rfl

@[simp] theorem Node.children_setChildren (n : Node)
    (ch' : List (String × Node)) : (n.setChildren ch').children = ch' := by
  cases n
  rfl

@[simp] theorem Node.children_setWatchers (n : Node) (ws' : List (Nat × Nat)) :
    (n.setWatchers ws').children = n.children := by
  cases n
  rfl

@[simp] theorem Node.children_setChildWatchers (n : Node)
    (cws' : List (Nat × Nat)) :
    (n.setChildWatchers cws').children = n.children := by
  cases n
  rfl

/-! ### Children-dict lemmas -/

theorem lookupChild_replaceChild_self {ch : List (String × Node)} {s : String}
    {c c' : Node} (h : lookupChild ch s = some c) :
    lookupChild (replaceChild s c' ch) s = some c' := by
  induction ch with
  | nil => simp [lookupChild] at h
  | cons e rest ih =>
    cases e with
    | mk name cn =>
      by_cases he : name = s
      · simp [lookupChild, replaceChild, he]
      · simp only [lookupChild, if_neg he] at h
        simp only [replaceChild, if_neg he, lookupChild, if_neg he]
        exact ih h

theorem lookupChild_replaceChild_ne {ch : List (String × Node)}
    {s s2 : String} {c' : Node} (h : s2 ≠ s) :
    lookupChild (replaceChild s c' ch) s2 = lookupChild ch s2 := by
  induction ch with
  | nil => rfl
  | cons e rest ih =>
    cases e with
    | mk name cn =>
      by_cases he : name = s
      · subst he
        simp only [replaceChild, if_pos rfl, lookupChild,
          if_neg (Ne.symm h), ih]
      · simp only [replaceChild, if_neg he, lookupChild]
        by_cases hs : name = s2
        · simp [hs]
        · rw [if_neg hs, if_neg hs, ih]

theorem lookupChild_eraseChild_self (ch : List (String × Node))
    (name : String) : lookupChild (eraseChild name ch) name = none := by
  induction ch with
  | nil => rfl
  | cons e rest ih =>
    cases e with
    | mk s c =>
      by_cases he : s = name
      · simpa [eraseChild, he] using ih
      · simp [eraseChild, he, lookupChild, ih]

theorem lookupChild_eraseChild_ne {ch : List (String × Node)}
    {s name : String} (h : s ≠ name) :
    lookupChild (eraseChild name ch) s = lookupChild ch s := by
  induction ch with
  | nil => rfl
  | cons e rest ih =>
    cases e with
    | mk s' c =>
      by_cases he : s' = name
      · subst he
        have h1 : eraseChild s' ((s', c) :: rest) = eraseChild s' rest := by
          simp [eraseChild]
        have h2 : lookupChild ((s', c) :: rest) s = lookupChild rest s := by
          simp [lookupChild, Ne.symm h]
        rw [h1, h2, ih]
      · simp only [eraseChild, if_neg he, lookupChild]
        by_cases hs : s' = s
        · simp [hs]
        · rw [if_neg hs, if_neg hs, ih]

theorem lookupChild_append (ch ch2 : List (String × Node)) (s : String) :
    lookupChild (ch ++ ch2) s =
      match lookupChild ch s with
      | some c => some c
      | none => lookupChild ch2 s := by
  induction ch with
  | nil => simp [lookupChild]
  | cons e rest ih =>
    cases e with
    | mk s' c =>
      by_cases hs : s' = s
      · simp [lookupChild, hs]
      · simp [lookupChild, hs, ih]

/-! ### Traversal and functional-update lemmas -/

theorem traverseFrom_append (n : Node) (u v : List String) :
    traverseFrom n (u ++ v) =
      match traverseFrom n u with
      | .ok m => traverseFrom m v
      | .error e => .error e := by
  induction u generalizing n with
  | nil => simp [traverseFrom]
  | cons s rest ih =>
    by_cases hs : s = ""
    · simp only [List.cons_append, traverseFrom, if_pos hs]
      exact ih n
    · simp only [List.cons_append, traverseFrom, if_neg hs]
      cases lookupChild n.children s with
      | none => rfl
      | some c => exact ih c

/-- Reaching a node and then rebuilding the tree with `f` applied there:
the same traversal on the rebuilt tree reaches `f`'s result. -/
theorem traverseFrom_updateSegs {n m : Node} {segs : List String}
    (f : Node → Node × List Action) (h : traverseFrom n segs = .ok m) :
    traverseFrom (updateSegs f n segs).1 segs = .ok (f m).1 := by
  induction segs generalizing n with
  | nil =>
    simp only [traverseFrom, Except.ok.injEq] at h
    subst h
    rfl
  | cons s rest ih =>
    by_cases hs : s = ""
    · simp only [traverseFrom, if_pos hs] at h ⊢
      simp only [updateSegs, if_pos hs]
      exact ih h
    · simp only [traverseFrom, if_neg hs] at h
      cases hc : lookupChild n.children s with
      | none => simp [hc] at h
      | some c =>
        simp only [hc] at h
        simp only [updateSegs, if_neg hs, hc, traverseFrom,
          Node.children_setChildren, lookupChild_replaceChild_self hc]
        exact ih h

/-- The actions produced by a functional update at a resolvable path are
exactly those produced by `f` at the reached node. -/
theorem updateSegs_acts {n m : Node} {segs : List String}
    (f : Node → Node × List Action) (h : traverseFrom n segs = .ok m) :
    (updateSegs f n segs).2 = (f m).2 := by
  induction segs generalizing n with
  | nil =>
    simp only [traverseFrom, Except.ok.injEq] at h
    subst h
    rfl
  | cons s rest ih =>
    by_cases hs : s = ""
    · simp only [traverseFrom, if_pos hs] at h
      simp only [updateSegs, if_pos hs]
      exact ih h
    · simp only [traverseFrom, if_neg hs] at h
      simp only [updateSegs, if_neg hs]
      cases hc : lookupChild n.children s with
      | none => simp [hc] at h
      | some c =>
        simp only [hc] at h
        exact ih h

/-! ### Normalised traversal and frame lemmas -/

@[simp] theorem existsN_nil (n : Node) : existsN n [] = true := rfl

theorem existsN_cons (n : Node) (s : String) (t : List String) :
    existsN n (s :: t) =
      match lookupChild n.children s with
      | none => false
      | some c => existsN c t := by
  cases hc : lookupChild n.children s <;> simp [existsN, specResolve, hc]

/-- The emulator's traversal loop equals plain descent over the non-empty
segments. -/
theorem traverseFrom_eq_specResolve (n : Node) (segs : List String) :
    traverseFrom n segs = specResolve n (nonEmptySegs segs) := by
  induction segs generalizing n with
  | nil => rfl
  | cons s rest ih =>
    by_cases hs : s = ""
    · simp only [traverseFrom, if_pos hs, nonEmptySegs, ih]
    · simp only [traverseFrom, if_neg hs, nonEmptySegs, specResolve]
      cases lookupChild n.children s with
      | none => rfl
      | some c => exact ih c

/-- The functional update skips empty segments exactly like the traversal. -/
theorem updateSegs_eq_updateN (f : Node → Node × List Action) (n : Node)
    (segs : List String) :
    updateSegs f n segs = updateN f n (nonEmptySegs segs) := by
  induction segs generalizing n with
  | nil => rfl
  | cons s rest ih =>
    by_cases hs : s = ""
    · simp only [updateSegs, if_pos hs, nonEmptySegs, ih]
    · simp only [updateSegs, if_neg hs, nonEmptySegs, updateN]
      cases lookupChild n.children s with
      | none => rfl
      | some c => simp only [ih]

/-- Updating with a children-preserving function preserves which paths
resolve. -/
theorem existsN_updateN_children_eq {f : Node → Node × List Action}
    (hf : ∀ m, ((f m).1).children = m.children) (n : Node)
    (u t : List String) :
    existsN (updateN f n u).1 t = existsN n t := by
  induction u generalizing n t with
  | nil =>
    cases t with
    | nil => simp
    | cons s ts => simp only [updateN, existsN_cons, hf n]
  | cons s us ih =>
    cases hc : lookupChild n.children s with
    | none => simp [updateN, hc]
    | some c =>
      simp only [updateN, hc]
      cases t with
      | nil => simp
      | cons s2 ts =>
        simp only [existsN_cons, Node.children_setChildren]
        by_cases hs2 : s2 = s
        · subst hs2
          rw [lookupChild_replaceChild_self hc, hc]
          exact ih c ts
        · rw [lookupChild_replaceChild_ne hs2]

/-- Erasing the child edge at `u ++ [name]` preserves the presence of every
path that does not pass through that edge. -/
theorem existsN_updateN_erase {name : String} (n : Node) (u t : List String)
    (hpre : ¬ (u ++ [name]) <+: t) (h : existsN n t = true) :
    existsN
      (updateN (fun m => (m.setChildren (eraseChild name m.children),
        ([] : List Action))) n u).1 t = true := by
  induction u generalizing n t with
  | nil =>
    cases t with
    | nil => simp
    | cons s ts =>
      have hs : s ≠ name := by
        intro hcon
        exact hpre (by
          simp only [List.nil_append, hcon]
          exact List.cons_prefix_cons.mpr ⟨rfl, List.nil_prefix⟩)
      simp only [existsN_cons] at h
      simp only [updateN, existsN_cons, Node.children_setChildren,
        lookupChild_eraseChild_ne hs]
      exact h
  | cons s us ih =>
    cases hc : lookupChild n.children s with
    | none => simpa [updateN, hc] using h
    | some c =>
      simp only [updateN, hc]
      cases t with
      | nil => simp
      | cons s2 ts =>
        simp only [existsN_cons, Node.children_setChildren] at h ⊢
        by_cases hs2 : s2 = s
        · subst hs2
          rw [lookupChild_replaceChild_self hc]
          rw [hc] at h
          refine ih c ts ?_ h
          intro hcon
          exact hpre (List.cons_prefix_cons.mpr ⟨rfl, hcon⟩)
        · rw [lookupChild_replaceChild_ne hs2]
          exact h

/-- Erasing a child edge anywhere never makes an absent path appear. -/
theorem existsN_updateN_erase_absent {name : String} (n : Node)
    (u t : List String) (h : existsN n t = false) :
    existsN
      (updateN (fun m => (m.setChildren (eraseChild name m.children),
        ([] : List Action))) n u).1 t = false := by
  induction u generalizing n t with
  | nil =>
    cases t with
    | nil => simp at h
    | cons s ts =>
      simp only [existsN_cons] at h
      simp only [updateN, existsN_cons, Node.children_setChildren]
      by_cases hs : s = name
      · subst hs
        rw [lookupChild_eraseChild_self]
      · rw [lookupChild_eraseChild_ne hs]
        exact h
  | cons s us ih =>
    cases hc : lookupChild n.children s with
    | none => simpa [updateN, hc] using h
    | some c =>
      simp only [updateN, hc]
      cases t with
      | nil => simp at h
      | cons s2 ts =>
        simp only [existsN_cons, Node.children_setChildren] at h ⊢
        by_cases hs2 : s2 = s
        · subst hs2
          rw [lookupChild_replaceChild_self hc]
          rw [hc] at h
          exact ih c ts h
        · rw [lookupChild_replaceChild_ne hs2]
          exact h

/-! ### Watcher-clearing lemmas -/

theorem dropHandle_any (h : Nat) (ws : List (Nat × Nat)) :
    (dropHandle h ws).any (fun p => p.1 == h) = false := by
  induction ws with
  | nil => rfl
  | cons p rest ih =>
    by_cases hc : p.1 = h
    · simpa [dropHandle, hc] using ih
    · simpa [dropHandle, hc] using ih

theorem clear_watchers_children (h : Nat) (n : Node) :
    (Node.clear_watchers h n).children = clearList h n.children := by
  cases n
  rfl

theorem lookupChild_clearList (h : Nat) (ch : List (String × Node))
    (s : String) :
    lookupChild (clearList h ch) s
      = (lookupChild ch s).map (Node.clear_watchers h) := by
  induction ch with
  | nil => rfl
  | cons e rest ih =>
    cases e with
    | mk s' c =>
      by_cases hs : s' = s
      · simp [clearList, lookupChild, hs]
      · simp [clearList, lookupChild, hs, ih]

/-- `clear_watchers` preserves the tree shape: resolving any segment list on
the cleared tree resolves to the cleared node. -/
theorem specResolve_clear (h : Nat) (n : Node) (t : List String) :
    specResolve (Node.clear_watchers h n) t
      = (specResolve n t).map (Node.clear_watchers h) := by
  induction t generalizing n with
  | nil => rfl
  | cons s ts ih =>
    simp only [specResolve, clear_watchers_children, lookupChild_clearList]
    cases lookupChild n.children s with
    | none => rfl
    | some c => simp [ih]

mutual

/-- After `clear_watchers h`, no node of the tree carries a registration with
handle `h`. -/
theorem hasW_clear (h : Nat) (n : Node) :
    Node.hasW h (Node.clear_watchers h n) = false := by
  match n with
  | .mk d ch a as av fl ws cws =>
    simp only [Node.clear_watchers, Node.hasW, Bool.or_eq_false_iff]
    exact ⟨⟨dropHandle_any h ws, dropHandle_any h cws⟩, hasWList_clear h ch⟩

theorem hasWList_clear (h : Nat) (l : List (String × Node)) :
    hasWList h (clearList h l) = false := by
  match l with
  | [] => rfl
  | (s, c) :: rest =>
    simp only [clearList, hasWList, Bool.or_eq_false_iff]
    exact ⟨hasW_clear h c, hasWList_clear h rest⟩

end

/-! ### Path-splitting lemmas -/

theorem splitChars_ne_nil (cs : List Char) : splitChars cs ≠ [] := by
  cases cs with
  | nil => simp [splitChars]
  | cons c rest =>
    simp only [splitChars]
    cases splitChars rest with
    | nil => simp
    | cons s ss =>
      by_cases hc : c = '/' <;> simp [hc]

theorem splitChars_append_slash (xs ys : List Char) :
    splitChars (xs ++ '/' :: ys) = splitChars xs ++ splitChars ys := by
  induction xs with
  | nil =>
    simp only [List.nil_append, splitChars]
    cases hys : splitChars ys with
    | nil => exact absurd hys (splitChars_ne_nil ys)
    | cons s ss => simp
  | cons c rest ih =>
    have hstep : splitChars ((c :: rest) ++ '/' :: ys)
        = match splitChars (rest ++ '/' :: ys) with
          | [] => [[c]]
          | s :: ss => if c = '/' then [] :: s :: ss else (c :: s) :: ss :=
      rfl
    rw [hstep, ih]
    cases hr : splitChars rest with
    | nil => exact absurd hr (splitChars_ne_nil rest)
    | cons s ss =>
      by_cases hc : c = '/' <;> simp [splitChars, hr, hc]

theorem splitChars_no_slash {cs : List Char} (h : ∀ c ∈ cs, c ≠ '/') :
    splitChars cs = [cs] := by
  induction cs with
  | nil => rfl
  | cons c rest ih =>
    have hc : c ≠ '/' := h c (by simp)
    simp only [splitChars, ih (fun x hx => h x (by simp [hx])), if_neg hc]

theorem dropWhile_head_false {p : Char → Bool} {l : List Char} {x : Char}
    {xs : List Char} (h : l.dropWhile p = x :: xs) : p x = false := by
  induction l with
  | nil => simp at h
  | cons a as ih =>
    rw [List.dropWhile_cons] at h
    by_cases hp : p a
    · rw [if_pos hp] at h
      exact ih h
    · rw [if_neg hp] at h
      cases h
      simpa using hp

/-- Reconstruction of a successful `rsplit`: the path is the base, a slash,
and a slash-free name. -/
theorem rsplit1_eq {p b nm : String} (h : rsplit1 p = some (b, nm)) :
    p.data = b.data ++ '/' :: nm.data ∧ ∀ c ∈ nm.data, c ≠ '/' := by
  unfold rsplit1 at h
  cases hdw : p.data.reverse.dropWhile notSlash with
  | nil => simp [hdw] at h
  | cons x base =>
    simp only [hdw, Option.some.injEq, Prod.mk.injEq] at h
    obtain ⟨hb, hnm⟩ := h
    have hx : x = '/' := by
      have := dropWhile_head_false hdw
      simpa [notSlash] using this
    have hsplit :
        p.data.reverse.takeWhile notSlash
          ++ p.data.reverse.dropWhile notSlash
          = p.data.reverse :=
      List.takeWhile_append_dropWhile notSlash p.data.reverse
    rw [hdw, hx] at hsplit
    constructor
    · have hpp : p.data = (p.data.reverse).reverse := by
        rw [List.reverse_reverse]
      rw [hpp, ← hsplit]
      rw [List.reverse_append, List.reverse_cons]
      rw [← hb, ← hnm]
      simp
    · intro c hc
      rw [← hnm] at hc
      have hc2 : c ∈ p.data.reverse.takeWhile notSlash :=
        List.mem_reverse.mp hc
      have := List.mem_takeWhile_imp hc2
      simpa [notSlash] using this

theorem splitPath_rsplit {p b nm : String} (h : rsplit1 p = some (b, nm)) :
    splitPath p = splitPath b ++ [nm] := by
  obtain ⟨hdata, hfree⟩ := rsplit1_eq h
  unfold splitPath
  rw [hdata, splitChars_append_slash, splitChars_no_slash hfree]
  cases nm
  simp

theorem splitPath_ne_nil (p : String) : splitPath p ≠ [] := by
  unfold splitPath
  intro hcon
  exact splitChars_ne_nil p.data (List.map_eq_nil_iff.mp hcon)

theorem pathSegs_rsplit {p b nm : String} (h : rsplit1 p = some (b, nm)) :
    pathSegs p = pathSegs b ++ [nm] := by
  unfold pathSegs
  rw [splitPath_rsplit h]
  cases hsp : splitPath b with
  | nil => exact absurd hsp (splitPath_ne_nil b)
  | cons s ss => simp

/-! ### Handle-allocation lemmas -/

theorem lowestUnusedFrom_spec (keys : List Nat) :
    ∀ (fuel start : Nat), (∃ m, start ≤ m ∧ m < start + fuel ∧ m ∉ keys) →
      lowestUnusedFrom keys fuel start ∉ keys ∧
        start ≤ lowestUnusedFrom keys fuel start ∧
        ∀ k, start ≤ k → k < lowestUnusedFrom keys fuel start → k ∈ keys := by
  intro fuel
  induction fuel with
  | zero =>
    rintro start ⟨m, h1, h2, _⟩
    omega
  | succ f ih =>
    rintro start ⟨m, h1, h2, h3⟩
    by_cases hs : start ∈ keys
    · have hm : start + 1 ≤ m := by
        rcases Nat.lt_or_ge start m with hlt | hge
        · omega
        · have : m = start := by omega
          rw [this] at h3
          exact absurd hs h3
      obtain ⟨r1, r2, r3⟩ := ih (start + 1) ⟨m, hm, by omega, h3⟩
      refine ⟨?_, ?_, ?_⟩
      · simpa [lowestUnusedFrom, if_pos hs] using r1
      · have : lowestUnusedFrom keys (f + 1) start
            = lowestUnusedFrom keys f (start + 1) := by
          simp [lowestUnusedFrom, if_pos hs]
        omega
      · intro k hk1 hk2
        by_cases hk : k = start
        · rw [hk]
          exact hs
        · rw [show lowestUnusedFrom keys (f + 1) start
              = lowestUnusedFrom keys f (start + 1) by
            simp [lowestUnusedFrom, if_pos hs]] at hk2
          exact r3 k (by omega) hk2
    · refine ⟨?_, ?_, ?_⟩
      · simpa [lowestUnusedFrom, if_neg hs] using hs
      · simp [lowestUnusedFrom, if_neg hs]
      · intro k hk1 hk2
        rw [show lowestUnusedFrom keys (f + 1) start = start by
          simp [lowestUnusedFrom, if_neg hs]] at hk2
        exact absurd (hk1.trans_lt hk2) (lt_irrefl start)

theorem exists_unused (keys : List Nat) : ∃ m, m ≤ keys.length ∧ m ∉ keys := by
  by_contra hcon
  push_neg at hcon
  have hsub : Finset.range (keys.length + 1) ⊆ keys.toFinset := by
    intro m hm
    rw [Finset.mem_range] at hm
    rw [List.mem_toFinset]
    exact hcon m (by omega)
  have h1 := Finset.card_le_card hsub
  rw [Finset.card_range] at h1
  have h2 := keys.toFinset_card_le
  omega

/-- The handle allocated by `init` is unused, and every smaller handle is in
use. -/
theorem lowestUnused_spec (keys : List Nat) :
    lowestUnused keys ∉ keys ∧ ∀ k < lowestUnused keys, k ∈ keys := by
  obtain ⟨m, hm1, hm2⟩ := exists_unused keys
  obtain ⟨r1, _, r3⟩ := lowestUnusedFrom_spec keys (keys.length + 1) 0
    ⟨m, Nat.zero_le m, by omega, hm2⟩
  exact ⟨r1, fun k hk => r3 k (Nat.zero_le k) hk⟩

/-! ### Session-table lemmas -/

theorem sessAdd_keys (ss : List (Nat × List String)) (h : Nat) (p : String) :
    (sessAdd ss h p).map (fun e => e.1) = ss.map (fun e => e.1) := by
  induction ss with
  | nil => rfl
  | cons e rest ih =>
    by_cases he : e.1 = h <;> simp [sessAdd, he] at ih ⊢ <;> exact ih

theorem sessRemove_keys (ss : List (Nat × List String)) (h : Nat)
    (p : String) :
    (sessRemove ss h p).map (fun e => e.1) = ss.map (fun e => e.1) := by
  induction ss with
  | nil => rfl
  | cons e rest ih =>
    by_cases he : e.1 = h <;> simp [sessRemove, he] at ih ⊢ <;> exact ih

theorem sessErase_not_mem (h : Nat) (ss : List (Nat × List String)) :
    h ∉ (sessErase h ss).map (fun e => e.1) := by
  induction ss with
  | nil => simp [sessErase]
  | cons e rest ih =>
    by_cases he : e.1 = h
    · simpa [sessErase, he] using ih
    · simp only [sessErase, if_neg he, List.map_cons, List.mem_cons]
      rintro (hc | hc)
      · exact he hc.symm
      · exact ih hc

@[simp] theorem Node.watchers_setChildren (n : Node)
    (ch' : List (String × Node)) : (n.setChildren ch').watchers = n.watchers := by
  cases n
  rfl

@[simp] theorem Node.child_watchers_setChildren (n : Node)
    (ch' : List (String × Node)) :
    (n.setChildren ch').child_watchers = n.child_watchers := by
  cases n
  rfl

@[simp] theorem Node.children_setData (n : Node) (d' : String) :
    (n.setData d').children = n.children := by
  cases n
  rfl

@[simp] theorem Node.children_setAcl (n : Node) (a' : Nat) :
    (n.setAcl a').children = n.children := by
  cases n
  rfl

@[simp] theorem Node.children_setAversion (n : Node) (av' : Nat) :
    (n.setAversion av').children = n.children := by
  cases n
  rfl

/-! ### Claim C10: init allocates the lowest unused handle, returns None -/

/-- C10: an `init` with the configured address returns `None` (unit, no
handle), registers a session under the lowest handle not in the session
table, and the allocated handle is observable only as the first argument of
the optional watch callback's session event. -/
theorem init_allocates_lowest (zk : ZooKeeper) (addr : String)
    (w : Option Nat) (hm : addr = zk.connection_string) :
    (zk.init addr w).val = .ok () ∧
    lowestUnused zk.sessionKeys ∉ zk.sessionKeys ∧
    (∀ k < lowestUnused zk.sessionKeys, k ∈ zk.sessionKeys) ∧
    (zk.init addr w).st.sessions
      = zk.sessions ++ [(lowestUnused zk.sessionKeys, [])] ∧
    (zk.init addr w).acts
      = match w with
        | some cb => [.invoke cb (lowestUnused zk.sessionKeys) .session
            CONNECTED_STATE ""]
        | none => [] := by
  obtain ⟨h1, h2⟩ := lowestUnused_spec zk.sessionKeys
  refine ⟨rfl, h1, h2, rfl, ?_⟩
  cases w with
  | none => simp [ZooKeeper.init, hm]
  | some cb => simp [ZooKeeper.init, hm]

theorem init_allocates_lowest_witness :
    cs = zk0.connection_string ∧
      ((zk0.init cs (some 9)).val = .ok () ∧
        lowestUnused zk0.sessionKeys ∉ zk0.sessionKeys ∧
        (∀ k < lowestUnused zk0.sessionKeys, k ∈ zk0.sessionKeys) ∧
        (zk0.init cs (some 9)).st.sessions
          = zk0.sessions ++ [(lowestUnused zk0.sessionKeys, [])] ∧
        (zk0.init cs (some 9)).acts
          = match some 9 with
            | some cb => [.invoke cb (lowestUnused zk0.sessionKeys) .session
                CONNECTED_STATE ""]
            | none => []) :=
  ⟨rfl, init_allocates_lowest zk0 cs (some 9) rfl⟩

/-! ### Claim C1: init with a mismatched address -/

/-- C1 (counterexample): `init` with an address different from the configured
connection string does not fail — it returns `None` like a successful init and
registers a new session (handle 0 here). -/
theorem init_mismatch_cex :
    "bogus" ≠ zk0.connection_string ∧
    (zk0.init "bogus" none).val = .ok () ∧
    (zk0.init "bogus" none).st.sessionKeys = [0] := by
  refine ⟨by decide, rfl, rfl⟩

/-- C1 (amended): on an address mismatch `init` emits the assertion-failure
diagnostic that `assert_` prints, raises nothing, and still registers the
session exactly as a matching init would. -/
theorem init_mismatch_registers (zk : ZooKeeper) (addr : String)
    (w : Option Nat) (hne : addr ≠ zk.connection_string) :
    (zk.init addr w).val = .ok () ∧
    (zk.init addr w).st.sessions
      = zk.sessions ++ [(lowestUnused zk.sessionKeys, [])] ∧
    (zk.init addr w).acts.head? = some (.assertionFailed addr) := by
  refine ⟨rfl, rfl, ?_⟩
  simp [ZooKeeper.init, hne]

theorem init_mismatch_registers_witness :
    "bogus" ≠ zkA.connection_string ∧
      ((zkA.init "bogus" none).val = .ok () ∧
        (zkA.init "bogus" none).st.sessions
          = zkA.sessions ++ [(lowestUnused zkA.sessionKeys, [])] ∧
        (zkA.init "bogus" none).acts.head?
          = some (.assertionFailed "bogus")) :=
  ⟨by decide, init_mismatch_registers zkA "bogus" none (by decide)⟩

/-! ### Claim C2: one-shot delivery is broken for child-watchers on delete -/

/-- C2 (code evaluation): `Node.deleted` invokes the child-watchers but clears
`watchers` twice instead of clearing `child_watchers`, so the child-watcher
registration survives its own delivery and an identical second `deleted`
event re-invokes the very same callback — the watcher sets are NOT all
swapped to empty before delivery. -/
theorem deleted_keeps_child_watchers :
    ((Node.mk "" [] 0 none 0 0 [] [(0, 7)]).deleted 0 CONNECTED_STATE
        "/a").2
      = [.invoke 7 0 .deleted CONNECTED_STATE "/a"] ∧
    (((Node.mk "" [] 0 none 0 0 [] [(0, 7)]).deleted 0 CONNECTED_STATE
        "/a").1).child_watchers
      = [(0, 7)] ∧
    ((((Node.mk "" [] 0 none 0 0 [] [(0, 7)]).deleted 0 CONNECTED_STATE
        "/a").1).deleted 0 CONNECTED_STATE "/a").2
      = [.invoke 7 0 .deleted CONNECTED_STATE "/a"] :=
  ⟨rfl, rfl, rfl⟩

/-! ### Claim C4: create does not store the given acl where get_acl reads -/

/-- C4 (code evaluation): `create` assigns the caller's acl to the unused
`acls` attribute; the `acl` attribute read by `get_acl` keeps its class-level
default, so `get_acl` after `create(..., acl = 7)` returns the default
`OPEN_ACL_UNSAFE` value (with aversion 0), not `7`. -/
theorem create_acl_not_stored :
    (zkA.create 0 "/a" "x" 7 0).val = .ok "/a" ∧
    ((zkA.create 0 "/a" "x" 7 0).st.get_acl 0 "/a").val = .ok (0, OPEN_ACL) ∧
    ((zkA.create 0 "/a" "x" 7 0).st._traverse "/a").map Node.acls
      = .ok (some 7) ∧
    (7 : Nat) ≠ OPEN_ACL :=
  ⟨rfl, rfl, rfl, by decide⟩

/-! ### Claim C9: traversal of relative paths -/

/-- C9 (counterexample): the path `"a"` splits into the single non-empty
segment `"a"`, which is absent from the root's (empty) children — yet the
operations succeed instead of failing with "no node", because `_traverse`
drops the first slash-component `split('/')[1:]` regardless of emptiness. -/
theorem relative_path_resolves_cex :
    zkA.root.children = [] ∧
    splitPath "a" = ["a"] ∧
    (zkA.exists_ 0 "a").val = .ok true ∧
    (zkA.get 0 "a" none).val = .ok ("", 0) := by
  refine ⟨rfl, by decide, rfl, rfl⟩

/-- C9 (amended): `_traverse` unconditionally drops the first slash-separated
component of the path (for an absolute path this is the empty leading
segment) and resolves the remaining components by plain descent of the
children mapping, skipping empty segments; an absent non-empty segment fails
with the "no node" error (`specResolve`). -/
theorem traverse_drops_first_component (zk : ZooKeeper) (path : String) :
    zk._traverse path
      = specResolve zk.root (nonEmptySegs ((splitPath path).tail)) :=
  traverseFrom_eq_specResolve zk.root (pathSegs path)

/-! ### Claim C5: version-checked acl update -/

/-- C5: with a stale `aversion`, `set_acl` raises `BadVersion` and leaves the
whole state (hence the node's acl and aversion) exactly unchanged; with the
current `aversion` it succeeds, replaces the acl, and increments the node's
aversion by exactly one (data and children untouched). -/
theorem set_acl_spec (zk : ZooKeeper) (h : Nat) (path : String)
    (av acl : Nat) {node : Node}
    (hh : zk.check_handle h = true)
    (ht : zk._traverse path = .ok node) :
    (av ≠ node.aversion →
      zk.set_acl h path av acl = ⟨.error .badVersion, zk, []⟩) ∧
    (av = node.aversion →
      (zk.set_acl h path av acl).val = .ok () ∧
      ∃ node', (zk.set_acl h path av acl).st._traverse path = .ok node' ∧
        node'.acl = acl ∧ node'.aversion = node.aversion + 1 ∧
        node'.data = node.data ∧ node'.children = node.children) := by
  constructor
  · intro hne
    simp only [ZooKeeper.set_acl, hh, if_true, ht, if_pos hne]
  · intro heq
    have hnn : ¬ av ≠ node.aversion := fun hc => hc heq
    constructor
    · simp only [ZooKeeper.set_acl, hh, if_true, ht, if_neg hnn]
    · refine ⟨(node.setAversion (node.aversion + 1)).setAcl acl, ?_, ?_, ?_,
        ?_, ?_⟩
      · simp only [ZooKeeper.set_acl, hh, if_true, ht, if_neg hnn]
        exact traverseFrom_updateSegs _ ht
      · cases node
        rfl
      · cases node
        rfl
      · cases node
        rfl
      · cases node
        rfl

theorem set_acl_spec_witness :
    (zkA.create 0 "/a" "x" 7 0).st.check_handle 0 = true ∧
      (zkA.create 0 "/a" "x" 7 0).st._traverse "/a"
        = .ok (.mk "x" [] 0 (some 7) 0 0 [] []) ∧
      ((0 ≠ (Node.mk "x" [] 0 (some 7) 0 0 [] []).aversion →
        (zkA.create 0 "/a" "x" 7 0).st.set_acl 0 "/a" 0 9
          = ⟨.error .badVersion, (zkA.create 0 "/a" "x" 7 0).st, []⟩) ∧
      (0 = (Node.mk "x" [] 0 (some 7) 0 0 [] []).aversion →
        (((zkA.create 0 "/a" "x" 7 0).st.set_acl 0 "/a" 0 9).val = .ok ()) ∧
        ∃ node',
          ((zkA.create 0 "/a" "x" 7 0).st.set_acl 0 "/a" 0 9).st._traverse
              "/a" = .ok node' ∧
            node'.acl = 9 ∧
            node'.aversion
              = (Node.mk "x" [] 0 (some 7) 0 0 [] []).aversion + 1 ∧
            node'.data = (Node.mk "x" [] 0 (some 7) 0 0 [] []).data ∧
            node'.children
              = (Node.mk "x" [] 0 (some 7) 0 0 [] []).children)) :=
  ⟨rfl, rfl,
    set_acl_spec (zkA.create 0 "/a" "x" 7 0).st 0 "/a" 0 9 rfl rfl⟩

/-! ### Claim C3: ordering of delete notifications -/

/-- A resolvable path splits into a resolvable parent and a child edge. -/
theorem traverse_parent_child {zk : ZooKeeper} {p b nm : String} {node : Node}
    (hsplit : rsplit1 p = some (b, nm)) (hnm : nm ≠ "")
    (ht : zk._traverse p = .ok node) :
    ∃ bnode, zk._traverse b = .ok bnode ∧
      lookupChild bnode.children nm = some node := by
  unfold ZooKeeper._traverse at ht ⊢
  rw [pathSegs_rsplit hsplit, traverseFrom_append] at ht
  cases htb : traverseFrom zk.root (pathSegs b) with
  | error e =>
    rw [htb] at ht
    simp at ht
  | ok bnode =>
    rw [htb] at ht
    refine ⟨bnode, rfl, ?_⟩
    simp only [traverseFrom, if_neg hnm] at ht
    cases hlk : lookupChild bnode.children nm with
    | none =>
      rw [hlk] at ht
      simp at ht
    | some c =>
      rw [hlk] at ht
      simp only [traverseFrom, Except.ok.injEq] at ht
      rw [ht]

/-- C3 (counterexample): deleting `/a`, which carries the data-watcher
`(0, 5)`, produces the unlink action strictly BEFORE the watcher invocation:
the node is unlinked from its parent first, and its watchers are invoked with
the `deleted` kind only afterwards — not while the node is still linked as
the claim states. -/
theorem delete_unlink_first_cex :
    (zkWatched.delete 0 "/a").acts
      = [.unlink "" "a", .invoke 5 0 .deleted CONNECTED_STATE "/a"] ∧
    (zkWatched.delete 0 "/a").acts.head? = some (.unlink "" "a") :=
  ⟨rfl, rfl⟩

/-- C3 (amended): for every successful delete, the trace is: first the unlink
of the node from its parent, then the node's data-watchers and child-watchers
invoked with the `deleted` kind, and only afterwards the parent's
children-changed watchers. -/
theorem delete_event_order (zk : ZooKeeper) (h : Nat) {path b nm : String}
    {node : Node}
    (hh : zk.check_handle h = true)
    (hsplit : rsplit1 path = some (b, nm)) (hnm : nm ≠ "")
    (ht : zk._traverse path = .ok node) :
    ∃ bnode, zk._traverse b = .ok bnode ∧
      (zk.delete h path).val = .ok () ∧
      (zk.delete h path).acts
        = .unlink b nm
            :: (node.watchers.map (mkInvoke .deleted CONNECTED_STATE path)
                ++ node.child_watchers.map
                  (mkInvoke .deleted CONNECTED_STATE path))
            ++ bnode.child_watchers.map (mkInvoke .child CONNECTED_STATE b) := by
  obtain ⟨bnode, htb, hlk⟩ := traverse_parent_child hsplit hnm ht
  have htb' : traverseFrom zk.root (pathSegs b) = .ok bnode := htb
  have h1 := traverseFrom_updateSegs
    (fun n => (n.setChildren (eraseChild nm n.children), ([] : List Action)))
    htb'
  have h2 := updateSegs_acts
    (fun n => n.children_changed h CONNECTED_STATE b) h1
  refine ⟨bnode, htb, ?_, ?_⟩
  · simp only [ZooKeeper.delete, hh, if_true, ht, hsplit, htb, hlk,
      Option.isSome_some, if_true]
  · simp only [ZooKeeper.delete, hh, if_true, ht, hsplit, htb, hlk,
      Option.isSome_some, if_true]
    rw [h2]
    simp only [Node.deleted, Node.children_changed,
      Node.child_watchers_setChildren, List.cons_append]

theorem delete_event_order_witness :
    zkWatched.check_handle 0 = true ∧
      rsplit1 "/a" = some ("", "a") ∧
      "a" ≠ "" ∧
      zkWatched._traverse "/a" = .ok (.mk "x" [] 0 (some 0) 0 0 [(0, 5)] []) ∧
      (∃ bnode, zkWatched._traverse "" = .ok bnode ∧
        (zkWatched.delete 0 "/a").val = .ok () ∧
        (zkWatched.delete 0 "/a").acts
          = .unlink "" "a"
              :: ((Node.mk "x" [] 0 (some 0) 0 0 [(0, 5)] []).watchers.map
                    (mkInvoke .deleted CONNECTED_STATE "/a")
                  ++ (Node.mk "x" [] 0 (some 0) 0 0
                      [(0, 5)] []).child_watchers.map
                    (mkInvoke .deleted CONNECTED_STATE "/a"))
              ++ bnode.child_watchers.map (mkInvoke .child CONNECTED_STATE "")) :=
  ⟨rfl, rfl, by decide, rfl,
    delete_event_order zkWatched 0 rfl rfl (by decide) rfl⟩

/-! ### Claim C7: create/get data round-trip with ephemeral ownership -/

/-- C7: a successful `create` followed by `get` on the same path returns
exactly the data passed to `create`, and the returned `ephemeralOwner` is `1`
when the node was created with the `EPHEMERAL` flag bit and `0` when it was
created without it. -/
theorem create_get_roundtrip (zk : ZooKeeper) (h : Nat)
    (data : String) (acl flags : Nat) {path b nm : String} {bnode : Node}
    (hh : zk.check_handle h = true)
    (hsplit : rsplit1 path = some (b, nm)) (hnm : nm ≠ "")
    (hb : zk._traverse b = .ok bnode)
    (hfree : lookupChild bnode.children nm = none) :
    (zk.create h path data acl flags).val = .ok path ∧
    ((zk.create h path data acl flags).st.get h path none).val
      = .ok (data, if flags.land EPHEMERAL ≠ 0 then 1 else 0) := by
  have hbb : traverseFrom zk.root (pathSegs b) = .ok bnode := hb
  have hroot : (zk.create h path data acl flags).st.root
      = (updateSegs (fun n =>
          (n.setChildren (n.children
            ++ [(nm, ((Node.fresh data).setAcls (some acl)).setFlags
              flags)])).children_changed h CONNECTED_STATE b)
        zk.root (pathSegs b)).1 := by
    simp only [ZooKeeper.create, hh, if_true, hsplit, hb, hfree,
      Option.isSome_none, Bool.false_eq_true, if_false]
    by_cases hf : flags.land EPHEMERAL ≠ 0 <;> simp [hf]
  have hkeys : (zk.create h path data acl flags).st.sessionKeys
      = zk.sessionKeys := by
    simp only [ZooKeeper.create, hh, if_true, hsplit, hb, hfree,
      Option.isSome_none, Bool.false_eq_true, if_false]
    by_cases hf : flags.land EPHEMERAL ≠ 0 <;>
      simp [hf, ZooKeeper.sessionKeys, sessAdd_keys]
  have h1 := traverseFrom_updateSegs
    (fun n => (n.setChildren (n.children
      ++ [(nm, ((Node.fresh data).setAcls (some acl)).setFlags
        flags)])).children_changed h CONNECTED_STATE b) hbb
  have htr2 : (zk.create h path data acl flags).st._traverse path
      = .ok (((Node.fresh data).setAcls (some acl)).setFlags flags) := by
    unfold ZooKeeper._traverse
    rw [hroot, pathSegs_rsplit hsplit, traverseFrom_append, h1]
    simp only [Node.children_changed]
    simp only [traverseFrom, if_neg hnm, Node.children_setChildWatchers,
      Node.children_setChildren, lookupChild_append, hfree]
    simp [lookupChild]
  have hch2 : (zk.create h path data acl flags).st.check_handle h = true := by
    unfold ZooKeeper.check_handle
    rw [show (zk.create h path data acl flags).st.sessionKeys.contains h
        = zk.sessionKeys.contains h by rw [hkeys]]
    exact hh
  constructor
  · simp only [ZooKeeper.create, hh, if_true, hsplit, hb, hfree,
      Option.isSome_none, Bool.false_eq_true, if_false]
  · simp only [ZooKeeper.get, hch2, if_true, htr2]
    simp [Node.fresh]

theorem create_get_roundtrip_witness :
    zkA.check_handle 0 = true ∧
      rsplit1 "/e" = some ("", "e") ∧
      "e" ≠ "" ∧
      zkA._traverse "" = .ok (Node.fresh "") ∧
      lookupChild (Node.fresh "").children "e" = none ∧
      ((zkA.create 0 "/e" "v" 3 1).val = .ok "/e" ∧
        ((zkA.create 0 "/e" "v" 3 1).st.get 0 "/e" none).val
          = .ok ("v", if (1 : Nat).land EPHEMERAL ≠ 0 then 1 else 0)) :=
  ⟨rfl, rfl, by decide, rfl, rfl,
    create_get_roundtrip zkA 0 "v" 3 1 rfl rfl (by decide) rfl rfl⟩

/-! ### Claim C6: atomicity of failing operations -/

/-- C6 (counterexample): session 0 owns ephemeral `/a` and `/z`; session 1
deletes `/z`, which leaves `/z` in session 0's ephemeral set.  `close(0)` then
deletes `/a` (a real mutation with notifications), fails with NoNode on `/z`,
and returns with session 0 still registered and `/a` gone — an operation that
raised after applying part of its mutation. -/
theorem close_partial_failure_cex :
    sessLookup zkStale.sessions 0 = ["/a", "/z"] ∧
    (zkStale.exists_ 0 "/a").val = .ok true ∧
    (zkStale.close 0).val = .error .noNode ∧
    (zkStale.close 0).st.sessionKeys = [0, 1] ∧
    ((zkStale.close 0).st.exists_ 0 "/a").val = .ok false :=
  ⟨rfl, rfl, rfl, rfl, rfl⟩

/-- C6 (amended): every façade operation except `close` is atomic with
respect to failure — whenever it raises, the returned state is exactly the
pre-call state and no action (notification, unlink, diagnostic) has been
performed; `init` never raises.  `close` is the exception: its cascade of
deletes can fail midway (see the counterexample). -/
theorem facade_atomic (zk : ZooKeeper) :
    (∀ a w, isErr (zk.init a w).val = false) ∧
    (∀ h, isErr (zk.state h).val = true →
      (zk.state h).st = zk ∧ (zk.state h).acts = []) ∧
    (∀ h p, isErr (zk.exists_ h p).val = true →
      (zk.exists_ h p).st = zk ∧ (zk.exists_ h p).acts = []) ∧
    (∀ h p w, isErr (zk.get h p w).val = true →
      (zk.get h p w).st = zk ∧ (zk.get h p w).acts = []) ∧
    (∀ h p w, isErr (zk.get_children h p w).val = true →
      (zk.get_children h p w).st = zk ∧ (zk.get_children h p w).acts = []) ∧
    (∀ h p d a f, isErr (zk.create h p d a f).val = true →
      (zk.create h p d a f).st = zk ∧ (zk.create h p d a f).acts = []) ∧
    (∀ h p, isErr (zk.delete h p).val = true →
      (zk.delete h p).st = zk ∧ (zk.delete h p).acts = []) ∧
    (∀ h p d, isErr (zk.set h p d).val = true →
      (zk.set h p d).st = zk ∧ (zk.set h p d).acts = []) ∧
    (∀ h p, isErr (zk.get_acl h p).val = true →
      (zk.get_acl h p).st = zk ∧ (zk.get_acl h p).acts = []) ∧
    (∀ h p av a, isErr (zk.set_acl h p av a).val = true →
      (zk.set_acl h p av a).st = zk ∧ (zk.set_acl h p av a).acts = []) := by
  refine ⟨?_, ?_, ?_, ?_, ?_, ?_, ?_, ?_, ?_, ?_⟩
  · intro a w
    rfl
  · intro h hc
    by_cases hch : zk.check_handle h
    · simp [ZooKeeper.state, hch, isErr] at hc
    · simp [ZooKeeper.state, hch]
  · intro h p hc
    by_cases hch : zk.check_handle h
    · cases htr : zk._traverse p with
      | ok n => simp [ZooKeeper.exists_, hch, htr, isErr] at hc
      | error e =>
        cases e <;> simp_all [ZooKeeper.exists_, hch, htr, isErr]
    · simp [ZooKeeper.exists_, hch]
  · intro h p w hc
    by_cases hch : zk.check_handle h
    · cases htr : zk._traverse p with
      | ok n => simp [ZooKeeper.get, hch, htr, isErr] at hc
      | error e => simp [ZooKeeper.get, hch, htr]
    · simp [ZooKeeper.get, hch]
  · intro h p w hc
    by_cases hch : zk.check_handle h
    · cases htr : zk._traverse p with
      | ok n => simp [ZooKeeper.get_children, hch, htr, isErr] at hc
      | error e => simp [ZooKeeper.get_children, hch, htr]
    · simp [ZooKeeper.get_children, hch]
  · intro h p d a f hc
    by_cases hch : zk.check_handle h
    · cases hrs : rsplit1 p with
      | none => simp [ZooKeeper.create, hch, hrs]
      | some bn =>
        obtain ⟨b, nm⟩ := bn
        cases htb : zk._traverse b with
        | error e => simp [ZooKeeper.create, hch, hrs, htb]
        | ok bnode =>
          by_cases hlk : (lookupChild bnode.children nm).isSome
          · simp [ZooKeeper.create, hch, hrs, htb, hlk]
          · simp [ZooKeeper.create, hch, hrs, htb, hlk, isErr] at hc
    · simp [ZooKeeper.create, hch]
  · intro h p hc
    by_cases hch : zk.check_handle h
    · cases htr : zk._traverse p with
      | error e => simp [ZooKeeper.delete, hch, htr]
      | ok node =>
        cases hrs : rsplit1 p with
        | none => simp [ZooKeeper.delete, hch, htr, hrs]
        | some bn =>
          obtain ⟨b, nm⟩ := bn
          cases htb : zk._traverse b with
          | error e => simp [ZooKeeper.delete, hch, htr, hrs, htb]
          | ok bnode =>
            by_cases hlk : (lookupChild bnode.children nm).isSome
            · simp [ZooKeeper.delete, hch, htr, hrs, htb, hlk, isErr] at hc
            · simp [ZooKeeper.delete, hch, htr, hrs, htb, hlk]
    · simp [ZooKeeper.delete, hch]
  · intro h p d hc
    by_cases hch : zk.check_handle h
    · cases htr : zk._traverse p with
      | ok n => simp [ZooKeeper.set, hch, htr, isErr] at hc
      | error e => simp [ZooKeeper.set, hch, htr]
    · simp [ZooKeeper.set, hch]
  · intro h p hc
    by_cases hch : zk.check_handle h
    · cases htr : zk._traverse p with
      | ok n => simp [ZooKeeper.get_acl, hch, htr, isErr] at hc
      | error e => simp [ZooKeeper.get_acl, hch, htr]
    · simp [ZooKeeper.get_acl, hch]
  · intro h p av a hc
    by_cases hch : zk.check_handle h
    · cases htr : zk._traverse p with
      | error e => simp [ZooKeeper.set_acl, hch, htr]
      | ok node =>
        by_cases hav : av ≠ node.aversion
        · simp [ZooKeeper.set_acl, hch, htr, hav]
        · simp [ZooKeeper.set_acl, hch, htr, hav, isErr] at hc
    · simp [ZooKeeper.set_acl, hch]

theorem facade_atomic_witness :
    isErr (zkA.delete 0 "/missing").val = true ∧
      (zkA.delete 0 "/missing").st = zkA ∧
      (zkA.delete 0 "/missing").acts = [] :=
  ⟨rfl, (facade_atomic zkA).2.2.2.2.2.2.1 0 "/missing" rfl⟩

/-! ### Claim C8: session close -/

theorem nonEmptySegs_append (u v : List String) :
    nonEmptySegs (u ++ v) = nonEmptySegs u ++ nonEmptySegs v := by
  induction u with
  | nil => rfl
  | cons s us ih =>
    by_cases hs : s = "" <;> simp [nonEmptySegs, hs, ih]

theorem mem_nonEmptySegs_ne (l : List String) (s : String)
    (h : s ∈ nonEmptySegs l) : s ≠ "" := by
  induction l with
  | nil => simp [nonEmptySegs] at h
  | cons t ts ih =>
    by_cases ht : t = ""
    · simp only [nonEmptySegs, if_pos ht] at h
      exact ih h
    · simp only [nonEmptySegs, if_neg ht] at h
      rcases List.mem_cons.mp h with rfl | h2
      · exact ht
      · exact ih h2

theorem resolvesB_eq_existsN (n : Node) (p : String) :
    resolvesB n p = existsN n (nonEmptySegs (pathSegs p)) := by
  unfold resolvesB existsN
  rw [traverseFrom_eq_specResolve]

theorem resolvesB_clear (h : Nat) (n : Node) (p : String) :
    resolvesB (Node.clear_watchers h n) p = resolvesB n p := by
  unfold resolvesB
  rw [traverseFrom_eq_specResolve, traverseFrom_eq_specResolve,
    specResolve_clear]
  cases specResolve n (nonEmptySegs (pathSegs p)) <;> rfl

/-- Erasing the child edge at the end of `u` makes the path `u ++ [name]`
unresolvable. -/
theorem existsN_updateN_erase_at {name : String} (n : Node)
    (u : List String) :
    existsN (updateN (fun m => (m.setChildren (eraseChild name m.children),
      ([] : List Action))) n u).1 (u ++ [name]) = false := by
  induction u generalizing n with
  | nil =>
    simp only [updateN, List.nil_append, existsN_cons,
      Node.children_setChildren, lookupChild_eraseChild_self]
  | cons s us ih =>
    cases hc : lookupChild n.children s with
    | none =>
      simp only [updateN, hc, List.cons_append, existsN_cons]
    | some c =>
      simp only [updateN, hc, List.cons_append, existsN_cons,
        Node.children_setChildren, lookupChild_replaceChild_self hc]
      exact ih c

/-- Postconditions of a successful `delete`: session keys and connection
string are untouched, the unlink action is in the trace, the deleted path no
longer resolves, absent paths stay absent, and present paths not passing
through the deleted edge stay present. -/
theorem delete_success_spec (zk : ZooKeeper) (h : Nat) (p : String)
    (hok : (zk.delete h p).val = .ok ()) :
    (zk.delete h p).st.sessionKeys = zk.sessionKeys ∧
    (zk.delete h p).st.connection_string = zk.connection_string ∧
    ∃ b nm, rsplit1 p = some (b, nm) ∧
      Action.unlink b nm ∈ (zk.delete h p).acts ∧
      (nm ≠ "" → resolvesB (zk.delete h p).st.root p = false) ∧
      (∀ q, resolvesB zk.root q = false →
        resolvesB (zk.delete h p).st.root q = false) ∧
      (∀ q, resolvesB zk.root q = true →
        ¬ (nonEmptySegs (pathSegs p) <+: nonEmptySegs (pathSegs q)) →
        resolvesB (zk.delete h p).st.root q = true) := by
  by_cases hch : zk.check_handle h
  case neg => simp [ZooKeeper.delete, hch] at hok
  cases htr : zk._traverse p with
  | error e => simp [ZooKeeper.delete, hch, htr] at hok
  | ok node =>
  cases hrs : rsplit1 p with
  | none => simp [ZooKeeper.delete, hch, htr, hrs] at hok
  | some bn =>
  obtain ⟨b, nm⟩ := bn
  cases htb : zk._traverse b with
  | error e => simp [ZooKeeper.delete, hch, htr, hrs, htb] at hok
  | ok bnode =>
  by_cases hlk : (lookupChild bnode.children nm).isSome
  case neg => simp [ZooKeeper.delete, hch, htr, hrs, htb, hlk] at hok
  have hst : (zk.delete h p).st = ⟨zk.connection_string,
      (updateSegs (fun n => n.children_changed h CONNECTED_STATE b)
        (updateSegs (fun n => (n.setChildren (eraseChild nm n.children), []))
          zk.root (pathSegs b)).1 (pathSegs b)).1,
      sessRemove zk.sessions h p⟩ := by
    simp [ZooKeeper.delete, hch, htr, hrs, htb, hlk]
  have hdrain : ∀ m : Node,
      (((fun n : Node => n.children_changed h CONNECTED_STATE b) m).1).children
        = m.children := by
    intro m
    cases m
    rfl
  have hroot : (zk.delete h p).st.root
      = (updateN (fun n => n.children_changed h CONNECTED_STATE b)
          (updateN (fun n =>
            (n.setChildren (eraseChild nm n.children), []))
            zk.root (nonEmptySegs (pathSegs b))).1
          (nonEmptySegs (pathSegs b))).1 := by
    rw [hst]
    show (updateSegs _ (updateSegs _ zk.root (pathSegs b)).1
        (pathSegs b)).1 = _
    rw [updateSegs_eq_updateN, updateSegs_eq_updateN]
  have htp : nonEmptySegs (pathSegs p)
      = nonEmptySegs (pathSegs b) ++ nonEmptySegs [nm] := by
    rw [pathSegs_rsplit hrs, nonEmptySegs_append]
  refine ⟨?_, ?_, b, nm, rfl, ?_, ?_, ?_, ?_⟩
  · rw [hst]
    show (sessRemove zk.sessions h p).map (fun e => e.1) = _
    rw [sessRemove_keys]
    rfl
  · rw [hst]
  · simp [ZooKeeper.delete, hch, htr, hrs, htb, hlk]
  · intro hnm
    rw [resolvesB_eq_existsN, hroot,
      existsN_updateN_children_eq hdrain, htp]
    have : nonEmptySegs [nm] = [nm] := by
      simp [nonEmptySegs, hnm]
    rw [this]
    exact existsN_updateN_erase_at zk.root (nonEmptySegs (pathSegs b))
  · intro q hq
    rw [resolvesB_eq_existsN] at hq ⊢
    rw [hroot, existsN_updateN_children_eq hdrain]
    exact existsN_updateN_erase_absent zk.root _ _ hq
  · intro q hq hnp
    rw [resolvesB_eq_existsN] at hq ⊢
    rw [hroot, existsN_updateN_children_eq hdrain]
    refine existsN_updateN_erase zk.root _ _ ?_ hq
    intro hcon
    by_cases hnm : nm = ""
    · subst hnm
      have hmem : "" ∈ nonEmptySegs (pathSegs q) :=
        hcon.subset (by simp)
      exact (mem_nonEmptySegs_ne _ _ hmem) rfl
    · apply hnp
      rw [htp]
      simpa [nonEmptySegs, hnm] using hcon

/-- Invariant of the `close` deletion loop on success. -/
theorem closeLoop_spec (h : Nat) (ps : List String) :
    ∀ zk : ZooKeeper, (closeLoop zk h ps).val = .ok () →
      (closeLoop zk h ps).st.sessionKeys = zk.sessionKeys ∧
      (closeLoop zk h ps).st.connection_string = zk.connection_string ∧
      (∀ p ∈ ps, (∃ b nm, rsplit1 p = some (b, nm) ∧ nm ≠ "") →
        resolvesB (closeLoop zk h ps).st.root p = false) ∧
      (∀ p ∈ ps, ∃ b nm, rsplit1 p = some (b, nm) ∧
        Action.unlink b nm ∈ (closeLoop zk h ps).acts) ∧
      (∀ q, resolvesB zk.root q = false →
        resolvesB (closeLoop zk h ps).st.root q = false) ∧
      (∀ q, resolvesB zk.root q = true →
        (∀ p ∈ ps,
          ¬ (nonEmptySegs (pathSegs p) <+: nonEmptySegs (pathSegs q))) →
        resolvesB (closeLoop zk h ps).st.root q = true) := by
  induction ps with
  | nil =>
    intro zk _
    exact ⟨rfl, rfl, by simp, by simp, fun q hq => hq, fun q hq _ => hq⟩
  | cons p rest ih =>
    intro zk hok
    cases hdv : (zk.delete h p).val with
    | error e => simp [closeLoop, hdv] at hok
    | ok u =>
      have hok2 : (closeLoop (zk.delete h p).st h rest).val = .ok () := by
        simpa [closeLoop, hdv] using hok
      obtain ⟨k1, k2, k3, k4, k5, k6⟩ := ih (zk.delete h p).st hok2
      obtain ⟨d1, d2, b, nm, hrs, dmem, dabs, dabsq, dpres⟩ :=
        delete_success_spec zk h p (by rw [hdv])
      have hst : (closeLoop zk h (p :: rest)).st
          = (closeLoop (zk.delete h p).st h rest).st := by
        simp [closeLoop, hdv]
      have hacts : (closeLoop zk h (p :: rest)).acts
          = (zk.delete h p).acts
            ++ (closeLoop (zk.delete h p).st h rest).acts := by
        simp [closeLoop, hdv]
      refine ⟨?_, ?_, ?_, ?_, ?_, ?_⟩
      · rw [hst, k1, d1]
      · rw [hst, k2, d2]
      · intro p' hp' hwf'
        rw [hst]
        rcases List.mem_cons.mp hp' with rfl | hp2
        · obtain ⟨b', nm', hrs', hnm'⟩ := hwf'
          rw [hrs] at hrs'
          obtain ⟨hb', hnm2⟩ := Prod.mk.injEq .. ▸ Option.some.injEq .. ▸ hrs'
          exact k5 p' (dabs (by rw [← hnm2] at hnm'; exact hnm'))
        · exact k3 p' hp2 hwf'
      · intro p' hp'
        rcases List.mem_cons.mp hp' with rfl | hp2
        · exact ⟨b, nm, hrs, by rw [hacts]; exact List.mem_append_left _ dmem⟩
        · obtain ⟨b', nm', hrs', hmem⟩ := k4 p' hp2
          exact ⟨b', nm', hrs',
            by rw [hacts]; exact List.mem_append_right _ hmem⟩
      · intro q hq
        rw [hst]
        exact k5 q (dabsq q hq)
      · intro q hq hcond
        rw [hst]
        exact k6 q (dpres q hq (hcond p (List.mem_cons_self p rest)))
          (fun p' hp2 => hcond p' (List.mem_cons_of_mem p hp2))

/-- C8 (counterexample): session 0 creates ephemeral `/a` and then the
NON-ephemeral child `/a/b`; close(0) succeeds and removes `/a` — taking the
non-ephemeral `/a/b`, created by that session, out of the tree with it.  The
claim says non-ephemeral nodes created by the session are left in the
tree. -/
theorem close_removes_nonephemeral_cex :
    ((zkNested._traverse "/a/b").map Node.flags = .ok 0) ∧
    (zkNested.exists_ 1 "/a/b").val = .ok true ∧
    sessLookup zkNested.sessions 0 = ["/a"] ∧
    (zkNested.close 0).val = .ok () ∧
    ((zkNested.close 0).st.exists_ 1 "/a/b").val = .ok false :=
  ⟨rfl, rfl, rfl, rfl, rfl⟩

/-- C8 (amended): a successful `close(handle)` deletes every path in that
session's ephemeral set (each with its unlink in the trace, via the normal
delete path), removes the session, and removes every watcher registration
bearing that handle from every node of the remaining tree, descendants
included; a pre-existing path survives provided it does not pass through any
of the session's ephemeral paths (in particular every non-ephemeral path that
is not a descendant of a deleted ephemeral path). -/
theorem close_spec (zk : ZooKeeper) (h : Nat)
    (hok : (zk.close h).val = .ok ())
    (hwf : ∀ p ∈ sessLookup zk.sessions h,
      ∃ b nm, rsplit1 p = some (b, nm) ∧ nm ≠ "") :
    h ∉ (zk.close h).st.sessionKeys ∧
    Node.hasW h ((zk.close h).st.root) = false ∧
    (∀ p ∈ sessLookup zk.sessions h,
      resolvesB (zk.close h).st.root p = false ∧
      ∃ b nm, rsplit1 p = some (b, nm) ∧
        Action.unlink b nm ∈ (zk.close h).acts) ∧
    (∀ q, resolvesB zk.root q = true →
      (∀ p ∈ sessLookup zk.sessions h,
        ¬ (nonEmptySegs (pathSegs p) <+: nonEmptySegs (pathSegs q))) →
      resolvesB (zk.close h).st.root q = true) := by
  by_cases hch : zk.check_handle h
  case neg => simp [ZooKeeper.close, hch] at hok
  cases hlv : (closeLoop zk h (sessLookup zk.sessions h)).val with
  | error e => simp [ZooKeeper.close, hch, hlv] at hok
  | ok u =>
    obtain ⟨k1, k2, k3, k4, k5, k6⟩ :=
      closeLoop_spec h (sessLookup zk.sessions h) zk (by rw [hlv])
    have hst : (zk.close h).st
        = ⟨(closeLoop zk h (sessLookup zk.sessions h)).st.connection_string,
            Node.clear_watchers h
              (closeLoop zk h (sessLookup zk.sessions h)).st.root,
            sessErase h
              (closeLoop zk h (sessLookup zk.sessions h)).st.sessions⟩ := by
      simp [ZooKeeper.close, hch, hlv]
    have hacts : (zk.close h).acts
        = (closeLoop zk h (sessLookup zk.sessions h)).acts := by
      simp [ZooKeeper.close, hch, hlv]
    refine ⟨?_, ?_, ?_, ?_⟩
    · rw [hst]
      exact sessErase_not_mem h _
    · rw [hst]
      exact hasW_clear h _
    · intro p hp
      obtain ⟨b, nm, hrs, hnm⟩ := hwf p hp
      constructor
      · rw [hst]
        show resolvesB (Node.clear_watchers h _) p = false
        rw [resolvesB_clear]
        exact k3 p hp ⟨b, nm, hrs, hnm⟩
      · obtain ⟨b', nm', hrs', hmem⟩ := k4 p hp
        exact ⟨b', nm', hrs', by rw [hacts]; exact hmem⟩
    · intro q hq hcond
      rw [hst]
      show resolvesB (Node.clear_watchers h _) q = true
      rw [resolvesB_clear]
      exact k6 q hq hcond

theorem close_spec_witness :
    (zkNested.close 0).val = .ok () ∧
      (∀ p ∈ sessLookup zkNested.sessions 0,
        ∃ b nm, rsplit1 p = some (b, nm) ∧ nm ≠ "") ∧
      (0 ∉ (zkNested.close 0).st.sessionKeys ∧
        Node.hasW 0 ((zkNested.close 0).st.root) = false ∧
        (∀ p ∈ sessLookup zkNested.sessions 0,
          resolvesB (zkNested.close 0).st.root p = false ∧
          ∃ b nm, rsplit1 p = some (b, nm) ∧
            Action.unlink b nm ∈ (zkNested.close 0).acts) ∧
        (∀ q, resolvesB zkNested.root q = true →
          (∀ p ∈ sessLookup zkNested.sessions 0,
            ¬ (nonEmptySegs (pathSegs p) <+: nonEmptySegs (pathSegs q))) →
          resolvesB (zkNested.close 0).st.root q = true)) := by
  have hwf : ∀ p ∈ sessLookup zkNested.sessions 0,
      ∃ b nm, rsplit1 p = some (b, nm) ∧ nm ≠ "" := by
    intro p hp
    have heq : sessLookup zkNested.sessions 0 = ["/a"] := rfl
    rw [heq, List.mem_singleton] at hp
    subst hp
    exact ⟨"", "a", rfl, by decide⟩
  exact ⟨rfl, hwf, close_spec zkNested 0 rfl hwf⟩

end ZkTest
